import Mathlib

/-!
Shallow embedding of the tc-validator-node core (TypeScript, NestJS) in Lean 4.

Modelled source files:
* `ConsensusService` (consensus.service.ts): PBFT message handlers, view change,
  quorum computation, block finalization.
* `QueueService` (queue.service.ts): the Redis-stream consumer loop.
* `MemPoolService` (mempool.service.ts): bounded fee-prioritized mempool.
* `Block` (block/block.ts): hashing and forging.
* `BlockService` (block/block.service.ts): persistence consulted by finalization.
* `TripcoinService` (tripcoin service): block-reward distribution and supply.
* `SignatureService` (signature.service.ts): opaque sign/verify primitives.

Modelling conventions:
* JS `Map` objects become association lists with replace-on-set semantics
  (`mapSet`), so the list length is the map size.
* JS numbers are modelled as `Nat` where the source only ever holds integers
  (heights, views, counters, supply) and as `Rat` where fractional values
  arise (balances, fees); the arithmetic the claims touch is exact in IEEE
  doubles at the relevant magnitudes, so exact arithmetic is faithful.
* `JSON.stringify({...m, signature: undefined})` is modelled by the message
  record with its signature field blanked (`msgBody`); serialization is
  injective on these records, and the SHA-256 / ECDSA primitives are opaque
  functions supplied by an `Env` record.
* Timers, logging and event-emitter calls have no effect on the modelled
  state and are omitted where they occur.
-/

namespace TCValidator

/-- Association-list lookup with decidable key equality: the first binding
of the key, mirroring a JS `Map` (which holds at most one). -/
def mapLookup {α β : Type} [DecidableEq α] (m : List (α × β)) (k : α) : Option β :=
  match m with
  | [] => none
  | (k₁, v) :: rest => if k₁ = k then some v else mapLookup rest k

/-- `Map.set`: replace the binding of `k` in place, or append a new binding. -/
def mapSet {α β : Type} [DecidableEq α] (m : List (α × β)) (k : α) (v : β) : List (α × β) :=
  match m with
  | [] => [(k, v)]
  | (k₁, v₁) :: rest => if k₁ = k then (k, v) :: rest else (k₁, v₁) :: mapSet rest k v

/-- `Map.delete`: drop the binding of `k`. -/
def mapDelete {α β : Type} [DecidableEq α] (m : List (α × β)) (k : α) : List (α × β) :=
  m.filter (fun e => decide (e.1 ≠ k))

/-- `Map.get` with a default for a missing key. -/
def mapGetD {α β : Type} [DecidableEq α] (m : List (α × β)) (k : α) (d : β) : β :=
  (mapLookup m k).getD d

/-- The `if (!map.has(key)) map.set(key, [])` idiom of the consensus service. -/
def mapEnsure {α β : Type} [DecidableEq α] (m : List (α × List β)) (k : α) : List (α × List β) :=
  if (mapLookup m k).isSome then m else mapSet m k []

/-- The `map.get(key)?.push(v)` idiom, after `mapEnsure`: append `v` to the
list bound at `k` (creating the binding when absent). -/
def mapPush {α β : Type} [DecidableEq α] (m : List (α × List β)) (k : α) (v : β) : List (α × List β) :=
  mapSet m k (mapGetD m k [] ++ [v])

/-- `ConsensusMessageType` (create-consensus.dto.ts). -/
inductive ConsensusMessageType : Type
  | PREPARE
  | COMMIT
  | VIEW_CHANGE
  | PRE_PREPARE
  | NEW_VIEW
deriving DecidableEq, Repr

/-- `ConsensusMessage` (create-consensus.dto.ts), with the optional fields of
the `ViewChangeMessage` and `NewViewMessage` extensions inlined. `Option`
models fields that may be absent (`undefined`) on the wire. The NEW_VIEW
payload fields hold JSON-serialized messages, as in the source. -/
structure ConsensusMessage : Type where
  type : ConsensusMessageType
  blockHeight : Nat
  blockHash : String
  validator : String
  signature : String
  view : Option Nat := none
  newView : Option Nat := none
  lastPreparedSeqNum : Option Nat := none
  viewChangeProof : List String := []
  viewChangeMessages : List String := []
  preprepareMessages : List String := []
deriving DecidableEq, Repr

/-- The message with its signature field blanked: the preimage that
`JSON.stringify({ ...message, signature: undefined })` serializes for both
signing and verification. -/
def msgBody (m : ConsensusMessage) : ConsensusMessage :=
  { m with signature := "" }

/-- `ITransaction`-shaped transaction record, with the fields the mempool,
the block store and the hash preimage consult. The source fields `from` and
`to` are Lean keywords and are renamed `sender` / `recipient`. -/
structure Tx : Type where
  hash : String
  sender : String
  recipient : String
  amount : Rat
  gasLimit : Nat
  fee : Rat
  size : Rat
  processId : String := ""
deriving DecidableEq, Repr

/-- `ICriticalProcess`, reduced to the fields the modelled operations read:
`processId` (indexing in `saveBlock`) and `hashData` (the block hash
preimage). The constructor-computed `hashedData` copy and the raw
`originalDataStructure` are written but never read by any modelled
operation and are omitted. -/
structure CriticalProcess : Type where
  processId : String
  hashData : String
deriving DecidableEq, Repr

/-- `Block` (block/block.ts). The derived `type` and `totalFees` fields are
not part of the hash preimage and are not consulted by any modelled
operation; they are omitted. `Option` on the two body lists models the
optional constructor arguments. -/
structure Block : Type where
  index : Nat
  timestamp : String
  transactions : Option (List Tx) := none
  criticalProcesses : Option (List CriticalProcess) := none
  previousHash : String := ""
  hash : String := ""
  nonce : Nat := 0
  signature : String := ""
  validator : String := ""
deriving DecidableEq, Repr

/-- The exact data `Block.calculateHash` feeds to SHA-256 (block.ts lines
68-81): index, previousHash, timestamp, the serialized transactions (or
`[]`), the `hashData` of each critical process (or `[]`), nonce, and
signature — and nothing else; in particular not `validator`. The source
concatenates the rendered fields into one string and hashes it; the digest
is opaque, so it is modelled as an arbitrary function of exactly this
record. -/
structure BlockPreimage : Type where
  index : Nat
  previousHash : String
  timestamp : String
  transactions : List Tx
  criticalHashData : List String
  nonce : Nat
  signature : String
deriving DecidableEq, Repr

/-- The hash preimage of a block, per `calculateHash`. -/
def hashPreimage (b : Block) : BlockPreimage :=
  { index := b.index
    previousHash := b.previousHash
    timestamp := b.timestamp
    transactions := b.transactions.getD []
    criticalHashData := (b.criticalProcesses.getD []).map (·.hashData)
    nonce := b.nonce
    signature := b.signature }

/-- `ConsensusService`'s per-replica mutable fields (consensus.service.ts
lines 28-41). Message tables are keyed by the string `height:hash`; view
change messages by the target view. The timer handles and logger carry no
modelled state. -/
structure ConsensusState : Type where
  prePrepareMessages : List (String × List ConsensusMessage) := []
  prepareMessages : List (String × List ConsensusMessage) := []
  commitMessages : List (String × List ConsensusMessage) := []
  viewChangeMessages : List (Nat × List ConsensusMessage) := []
  currentView : Nat := 0
  isViewChanging : Bool := false
  lastExecutedBlock : Nat := 0
  activeValidators : List String := []
  isPrimary : Bool := false
  processingBlocks : List String := []
deriving DecidableEq, Repr

/-- `BlockService`'s persistent and in-memory state: the Redis hashes and
keys it writes, plus its in-memory block cache (the field the source calls
`mempool`) and `blockHeight`. Snapshot entries record only the height; the
wall-clock timestamp inside the stored snapshot JSON is not modelled. -/
structure ChainState : Type where
  blocks : List (String × Block) := []
  heightIndex : List (Nat × String) := []
  heightKey : Nat := 0
  txIndex : List (String × String) := []
  cache : List (String × Block) := []
  blockHeight : Nat := 0
  snapshots : List (Nat × Nat) := []
deriving DecidableEq, Repr

/-- The whole modelled world: the consensus replica, the block store, the
tripcoin supply and balances, and the observable outputs — every message
appended to the `consensus_messages` stream (`enqueued`) and every message
broadcast through the gateway (`broadcasts`). Balances are exact rationals
standing for JS numbers. -/
structure World : Type where
  consensus : ConsensusState := {}
  chain : ChainState := {}
  supply : Nat := 0
  balances : List (String × Rat) := []
  enqueued : List ConsensusMessage := []
  broadcasts : List ConsensusMessage := []
deriving DecidableEq, Repr

/-- The opaque capabilities the services are constructed with: the local
node's address and signer (SignatureService), the crypto verify primitive,
JSON round-tripping for the NEW_VIEW payload, the SHA-256 of a block
preimage, the pending-block source used after a view change, and the
validator list the reward distribution pays
(`ValidatorGateway.getActiveValidators`, addresses only). -/
structure Env : Type where
  localAddress : String
  signMessage : ConsensusMessage → String
  signString : String → String
  verifySignature : ConsensusMessage → String → String → Bool
  serializeMsg : ConsensusMessage → String
  parseMsg : String → ConsensusMessage
  sha256Block : BlockPreimage → String
  pendingBlocks : Nat → List Block
  rewardValidators : List String

/-- `getTotalValidators` (consensus.service.ts lines 682-684). -/
def getTotalValidators (s : ConsensusState) : Nat :=
  s.activeValidators.length

/-- `getRequiredQuorum` (lines 657-660): `Math.floor((total * 2) / 3) + 1`. -/
def getRequiredQuorum (s : ConsensusState) : Nat :=
  getTotalValidators s * 2 / 3 + 1

/-- `getRequiredPrepares` (lines 666-668): `Math.floor(total * 2 / 3) + 1`. -/
def getRequiredPrepares (s : ConsensusState) : Nat :=
  getTotalValidators s * 2 / 3 + 1

/-- `getRequiredCommits` (lines 674-676): same as `getRequiredPrepares`. -/
def getRequiredCommits (s : ConsensusState) : Nat :=
  getRequiredPrepares s

/-- `isPrimaryValidator` (lines 103-111): the leader of `view` is
`activeValidators[view % N]`; the local node is primary when that address
is its own. Returns false on an empty validator list. -/
def isPrimaryValidator (env : Env) (s : ConsensusState) (view : Nat) : Bool :=
  if s.activeValidators.length = 0 then false
  else s.activeValidators.get? (view % s.activeValidators.length) == some env.localAddress

/-- The `height:hash` key of the message tables. -/
def mkKey (height : Nat) (hash : String) : String :=
  toString height ++ ":" ++ hash

/-- `verifyMessageSignature` (lines 691-697): the crypto verify primitive is
applied to the message serialized with its signature blanked, the carried
signature, and — exactly as the source does — `message.validator` itself
passed in the `publicKey` position. -/
def verifyMessageSignature (env : Env) (m : ConsensusMessage) : Bool :=
  env.verifySignature (msgBody m) m.signature m.validator

/-- The spec's words for the admission check (spec 4.E.2 step 1): the
signature must verify against the registry public key of `m.validator`,
i.e. the key a registry lookup returns for that address. Stated only to be
compared with `verifyMessageSignature`, which is what the code does. -/
def verifyMessageSignatureSpec (env : Env) (registry : String → String)
    (m : ConsensusMessage) : Bool :=
  env.verifySignature (msgBody m) m.signature (registry m.validator)

/-- `BLOCK_REWARD` default (tripcoin service). -/
def BLOCK_REWARD : Nat := 50

/-- `SUPPLY_CAP` default (tripcoin service). -/
def SUPPLY_CAP : Nat := 21000000

/-- `Block.calculateHash` (block.ts lines 68-81): SHA-256 of the preimage. -/
def calculateHash (env : Env) (b : Block) : String :=
  env.sha256Block (hashPreimage b)

/-- `Block.forgeBlock` (block.ts lines 99-103): assign the validator and
recompute the hash. -/
def forgeBlock (env : Env) (validator : String) (b : Block) : Block :=
  let b₁ := { b with validator := validator }
  { b₁ with hash := calculateHash env b₁ }

/-- The effect of `BlockService.getBlock`'s JSON round trip: the stored
block is rebuilt through the `Block` constructor with `transactions || []`
and `criticalProcesses || []`, then `hash`, `nonce` and `validator` are
copied back, so absent body lists are normalized to empty ones and every
other modelled field is restored unchanged. -/
def reconstructBlock (b : Block) : Block :=
  { b with transactions := some (b.transactions.getD [])
           criticalProcesses := some (b.criticalProcesses.getD []) }

/-- `BlockService.getBlock`: consult the in-memory cache first, then the
`blockchain:blocks` hash, deserializing on a store hit. -/
def getBlock (c : ChainState) (hash : String) : Option Block :=
  match mapLookup c.cache hash with
  | some b => some b
  | none => (mapLookup c.blocks hash).map reconstructBlock

/-- `BlockService.getBlockByHeight`: resolve `blockchain:height:<h>` and
fetch the block by hash. -/
def getBlockByHeight (c : ChainState) (height : Nat) : Option Block :=
  match mapLookup c.heightIndex height with
  | some hash => getBlock c hash
  | none => none

/-- `BlockService.isValidBlock`: the hash must recompute, and when a parent
at `index - 1` is found its hash must match `previousHash`. For `index = 0`
the JS lookup key is `-1`, which never exists, so the parent check passes
vacuously; the validator-signature check is an unimplemented TODO in the
source. -/
def isValidBlock (env : Env) (c : ChainState) (b : Block) : Bool :=
  (b.hash == calculateHash env b) &&
    (match (if b.index = 0 then none else getBlockByHeight c (b.index - 1)) with
     | some parent => b.previousHash == parent.hash
     | none => true)

/-- `BlockService.saveBlock`: validate (throwing — `none` — on an invalid
block), store the serialized block under its hash, update the height
indices, index the transactions and critical processes, evict the block's
transactions from the in-memory cache, track `blockHeight`, and snapshot
every 1000 blocks. -/
def saveBlock (env : Env) (w : World) (b : Block) : Option World :=
  if isValidBlock env w.chain b then
    let c := w.chain
    let txs := b.transactions.getD []
    let cps := b.criticalProcesses.getD []
    let c₁ :=
      { c with blocks := mapSet c.blocks b.hash b
               heightIndex := mapSet c.heightIndex b.index b.hash
               heightKey := b.index
               txIndex :=
                 cps.foldl (fun acc p => mapSet acc p.processId b.hash)
                   (txs.foldl (fun acc tx => mapSet acc tx.processId b.hash) c.txIndex)
               cache := txs.foldl (fun acc tx => mapDelete acc tx.processId) c.cache
               blockHeight := max c.blockHeight b.index
               snapshots :=
                 if b.index % 1000 = 0 then mapSet c.snapshots b.index b.index
                 else c.snapshots }
    some { w with chain := c₁ }
  else none

/-- Modelled from the spec: `StateService.getAccountBalance` is missing from
the source tree (only its callers in `TripcoinService` appear). The spec
keeps balances in the `blockchain:state` balance map; an absent account
reads 0. -/
def getAccountBalance (bals : List (String × Rat)) (addr : String) : Rat :=
  (mapLookup bals addr).getD 0

/-- Modelled from the spec: `StateService.incrementBalance` is missing from
the source tree; it adds the (possibly negative) delta to the stored
balance. -/
def incrementBalance (bals : List (String × Rat)) (addr : String) (delta : Rat) :
    List (String × Rat) :=
  mapSet bals addr (getAccountBalance bals addr + delta)

/-- Modelled from the spec: `StateService.setBalance` is missing from the
source tree; it overwrites the stored balance. -/
def setBalance (bals : List (String × Rat)) (addr : String) (v : Rat) :
    List (String × Rat) :=
  mapSet bals addr v

/-- `TripcoinService.transfer`: decrement the sender, increment the
recipient. -/
def transfer (bals : List (String × Rat)) (sender recipient : String) (amount : Rat) :
    List (String × Rat) :=
  incrementBalance (incrementBalance bals sender (-amount)) recipient amount

/-- `TripcoinService.distributeBlockReward`: read the fee pool, abort (the
caught throw changes nothing) if minting the reward would exceed the supply
cap, mint the reward, add it to the fee pool, split `feePool + reward`
evenly over the gateway's active validators, and zero the fee pool.
Division of JS numbers is modelled by exact rational division; an empty
validator list would divide by zero (JS Infinity, here `Rat` yields 0). -/
def distributeBlockReward (env : Env) (w : World) (_blockHeight : Nat) : World :=
  let feePool := getAccountBalance w.balances "FEE_POOL"
  if SUPPLY_CAP < w.supply + BLOCK_REWARD then w
  else
    let w₁ := { w with supply := w.supply + BLOCK_REWARD }
    let w₂ := { w₁ with balances := incrementBalance w₁.balances "FEE_POOL" (BLOCK_REWARD : Rat) }
    let totalReward : Rat := feePool + (BLOCK_REWARD : Rat)
    let perValidator := totalReward / (env.rewardValidators.length : Rat)
    let w₃ := env.rewardValidators.foldl
      (fun acc v => { acc with balances := transfer acc.balances "FEE_POOL" v perValidator }) w₂
    { w₃ with balances := setBalance w₃.balances "FEE_POOL" 0 }

/-- `finalizeBlock` (consensus.service.ts lines 732-770): fetch the block
(aborting when absent), persist it via `saveBlock` (an invalid-block throw
is caught and aborts with no state change, since nothing was written before
it), distribute the reward unless a view change is in progress, raise
`lastExecutedBlock`, and release the processing mark and the three message
table entries for the key. -/
def finalizeBlock (env : Env) (w : World) (height : Nat) (hash : String) : World :=
  match getBlock w.chain hash with
  | none => w
  | some b =>
    match saveBlock env w b with
    | none => w
    | some w₁ =>
      let w₂ :=
        if w₁.consensus.isViewChanging then w₁
        else distributeBlockReward env w₁ b.index
      let s := w₂.consensus
      let key := mkKey height hash
      { w₂ with consensus :=
          { s with lastExecutedBlock := max s.lastExecutedBlock height
                   processingBlocks := s.processingBlocks.filter (fun k => decide (k ≠ key))
                   prePrepareMessages := mapDelete s.prePrepareMessages key
                   prepareMessages := mapDelete s.prepareMessages key
                   commitMessages := mapDelete s.commitMessages key } }

/-- `broadcastPrepare` (lines 791-799): broadcast through the gateway, then
enqueue the same message on the `consensus_messages` stream. -/
def broadcastPrepare (w : World) (m : ConsensusMessage) : World :=
  { w with broadcasts := w.broadcasts ++ [m], enqueued := w.enqueued ++ [m] }

/-- `broadcastCommit` (lines 704-725): build and sign a COMMIT for the key
in the current view, broadcast it, and enqueue it for local processing. -/
def broadcastCommit (env : Env) (w : World) (height : Nat) (hash : String) : World :=
  let body : ConsensusMessage :=
    { type := ConsensusMessageType.COMMIT
      blockHeight := height
      blockHash := hash
      validator := env.localAddress
      view := some w.consensus.currentView
      signature := "" }
  let m := { body with signature := env.signMessage body }
  { w with broadcasts := w.broadcasts ++ [m], enqueued := w.enqueued ++ [m] }

/-- `proposeBlock` (lines 776-785): build a PREPARE for the block (signing
the raw block hash, with no view field set) and broadcast it. -/
def proposeBlock (env : Env) (w : World) (b : Block) : World :=
  let m : ConsensusMessage :=
    { type := ConsensusMessageType.PREPARE
      blockHeight := b.index
      blockHash := b.hash
      validator := env.localAddress
      signature := env.signString b.hash }
  broadcastPrepare w m

/-- `reproposePendingBlocks` (lines 274-290): as the (new) primary, fetch
the blocks pending past `lastExecutedBlock` and re-propose each. -/
def reproposePendingBlocks (env : Env) (w : World) : World :=
  if w.consensus.isPrimary then
    (env.pendingBlocks w.consensus.lastExecutedBlock).foldl (proposeBlock env) w
  else w

/-- `sendNewView` (lines 239-269): as the new primary, serialize the
VIEW_CHANGE proof set, build and sign a NEW_VIEW, enqueue and broadcast it,
then re-propose the pending blocks. -/
def sendNewView (env : Env) (w : World) (newView : Nat)
    (vcMessages : List ConsensusMessage) : World :=
  let body : ConsensusMessage :=
    { type := ConsensusMessageType.NEW_VIEW
      blockHeight := w.consensus.lastExecutedBlock
      blockHash := ""
      validator := env.localAddress
      view := some newView
      viewChangeMessages := vcMessages.map env.serializeMsg
      preprepareMessages := []
      signature := "" }
  let m := { body with signature := env.signMessage body }
  let w₁ := { w with enqueued := w.enqueued ++ [m], broadcasts := w.broadcasts ++ [m] }
  reproposePendingBlocks env w₁

/-- `completeViewChange` (lines 212-232): adopt the new view, recompute
primacy, clear the view-changing flag, and — when primary — emit NEW_VIEW
(otherwise only the unmodelled timer is reset). -/
def completeViewChange (env : Env) (w : World) (newView : Nat)
    (messages : List ConsensusMessage) : World :=
  let s := w.consensus
  let s₁ := { s with currentView := newView
                     isPrimary := isPrimaryValidator env s newView
                     isViewChanging := false }
  let w₁ := { w with consensus := s₁ }
  if s₁.isPrimary then sendNewView env w₁ newView messages else w₁

/-- `initiateViewChange` (lines 142-185): a no-op when a view change is
already in progress; otherwise set the flag, build and sign a VIEW_CHANGE
for `currentView + 1`, store it locally, enqueue it and broadcast it. The
secondary timer that later runs `checkViewChangeProgress` is not modelled
as state. -/
def initiateViewChange (env : Env) (w : World) : World :=
  if w.consensus.isViewChanging then w
  else
    let s := w.consensus
    let newView := s.currentView + 1
    let body : ConsensusMessage :=
      { type := ConsensusMessageType.VIEW_CHANGE
        blockHeight := s.lastExecutedBlock
        blockHash := ""
        validator := env.localAddress
        view := some s.currentView
        newView := some newView
        lastPreparedSeqNum := some s.lastExecutedBlock
        viewChangeProof := []
        signature := "" }
    let m := { body with signature := env.signMessage body }
    let s₁ := { s with isViewChanging := true
                       viewChangeMessages := mapPush s.viewChangeMessages newView m }
    { w with consensus := s₁
             enqueued := w.enqueued ++ [m]
             broadcasts := w.broadcasts ++ [m] }

/-- `checkViewChangeProgress` (lines 191-205): when the secondary timer
fires, do nothing unless still view-changing toward a higher view; complete
the change on quorum, otherwise retry via `initiateViewChange`. -/
def checkViewChangeProgress (env : Env) (w : World) (newView : Nat) : World :=
  if ¬ w.consensus.isViewChanging ∨ newView ≤ w.consensus.currentView then w
  else
    let messages := mapGetD w.consensus.viewChangeMessages newView []
    if getRequiredQuorum w.consensus ≤ messages.length then
      completeViewChange env w newView messages
    else
      initiateViewChange env w

/-- `handlePrePrepareMessage` (lines 369-420): reject unless the local node
is primary for the current view or the sender is that view's leader; skip
blocks already in process; mark the key, enqueue the message, store it in
`prePrepareMessages`; then fetch and validate the referenced block —
dropping the processing mark on failure — and on success build, sign and
broadcast a PREPARE. An out-of-range leader index (empty validator list)
reads `undefined`, which never equals the sender. -/
def handlePrePrepareMessage (env : Env) (w : World) (m : ConsensusMessage) : World :=
  let s := w.consensus
  let leader := s.activeValidators.get? (s.currentView % s.activeValidators.length)
  if ¬ isPrimaryValidator env s s.currentView ∧ some m.validator ≠ leader then w
  else
    let key := mkKey m.blockHeight m.blockHash
    if key ∈ s.processingBlocks then w
    else
      let s₁ := { s with processingBlocks := s.processingBlocks ++ [key] }
      let w₁ := { w with consensus := s₁, enqueued := w.enqueued ++ [m] }
      let s₂ := { s₁ with prePrepareMessages := mapPush s₁.prePrepareMessages key m }
      let w₂ := { w₁ with consensus := s₂ }
      let ok := match getBlock w₂.chain m.blockHash with
        | none => false
        | some b => isValidBlock env w₂.chain b
      if ok then
        let body : ConsensusMessage :=
          { type := ConsensusMessageType.PREPARE
            blockHeight := m.blockHeight
            blockHash := m.blockHash
            validator := env.localAddress
            view := some s₂.currentView
            signature := "" }
        let p := { body with signature := env.signMessage body }
        broadcastPrepare w₂ p
      else
        { w₂ with consensus :=
            { s₂ with processingBlocks := s₂.processingBlocks.filter (fun k => decide (k ≠ key)) } }

/-- `handlePrepareMessage` (lines 426-456): re-enqueue the message for
distributed processing, require a prior PRE_PREPARE for the key, ensure the
table entry, drop a duplicate from the same validator silently, store the
message, and broadcast COMMIT when the PREPARE quorum is reached. -/
def handlePrepareMessage (env : Env) (w : World) (m : ConsensusMessage) : World :=
  let w₁ := { w with enqueued := w.enqueued ++ [m] }
  let s := w₁.consensus
  let key := mkKey m.blockHeight m.blockHash
  if (mapLookup s.prePrepareMessages key).isNone then w₁
  else
    let s₁ := { s with prepareMessages := mapEnsure s.prepareMessages key }
    let existing := mapGetD s₁.prepareMessages key []
    if existing.any (fun e => e.validator == m.validator) then { w₁ with consensus := s₁ }
    else
      let s₂ := { s₁ with prepareMessages := mapPush s₁.prepareMessages key m }
      let w₂ := { w₁ with consensus := s₂ }
      if getRequiredPrepares s₂ ≤ (mapGetD s₂.prepareMessages key []).length then
        broadcastCommit env w₂ m.blockHeight m.blockHash
      else w₂

/-- `handleCommitMessage` (lines 462-493): re-enqueue the message, require a
PREPARE quorum for the key, ensure the table entry, drop a duplicate from
the same validator silently, store the message, and finalize when the
COMMIT quorum is reached. -/
def handleCommitMessage (env : Env) (w : World) (m : ConsensusMessage) : World :=
  let w₁ := { w with enqueued := w.enqueued ++ [m] }
  let s := w₁.consensus
  let key := mkKey m.blockHeight m.blockHash
  if (mapLookup s.prepareMessages key).isNone ∨
      (mapGetD s.prepareMessages key []).length < getRequiredPrepares s then w₁
  else
    let s₁ := { s with commitMessages := mapEnsure s.commitMessages key }
    let existing := mapGetD s₁.commitMessages key []
    if existing.any (fun e => e.validator == m.validator) then { w₁ with consensus := s₁ }
    else
      let s₂ := { s₁ with commitMessages := mapPush s₁.commitMessages key m }
      let w₂ := { w₁ with consensus := s₂ }
      if getRequiredCommits s₂ ≤ (mapGetD s₂.commitMessages key []).length then
        finalizeBlock env w₂ m.blockHeight m.blockHash
      else w₂

/-- `handleViewChangeMessage` (lines 499-528): ignore targets at or below
the current view, re-enqueue the message, store it under its target view,
start a local view change when none is running, and complete the change on
quorum. The source casts the message to `ViewChangeMessage`, whose
`newView` field its type requires; a wire message without one is modelled
as leaving the state unchanged. -/
def handleViewChangeMessage (env : Env) (w : World) (m : ConsensusMessage) : World :=
  match m.newView with
  | none => w
  | some newView =>
    if newView ≤ w.consensus.currentView then w
    else
      let w₁ := { w with enqueued := w.enqueued ++ [m] }
      let s := w₁.consensus
      let s₁ := { s with viewChangeMessages := mapPush s.viewChangeMessages newView m }
      let w₂ := { w₁ with consensus := s₁ }
      let w₃ :=
        if ¬ s₁.isViewChanging ∧ s₁.currentView < newView then initiateViewChange env w₂
        else w₂
      let messages := mapGetD w₃.consensus.viewChangeMessages newView []
      if getRequiredQuorum w₃.consensus ≤ messages.length then
        completeViewChange env w₃ newView messages
      else w₃

/-- `handleNewViewMessage` (lines 534-584): the sender must be the leader of
the announced view (an empty validator list indexes `undefined`, rejecting
everything, as does an absent `view` field), the view must be strictly
newer, the message is re-enqueued, the carried VIEW_CHANGE proof set must
reach quorum, then the view is adopted and the included PRE_PREPAREs are
replayed through the ordinary handler. -/
def handleNewViewMessage (env : Env) (w : World) (m : ConsensusMessage) : World :=
  match m.view with
  | none => w
  | some view =>
    let s := w.consensus
    let expectedPrimary := s.activeValidators.get? (view % s.activeValidators.length)
    if some m.validator ≠ expectedPrimary then w
    else if view ≤ s.currentView then w
    else
      let w₁ := { w with enqueued := w.enqueued ++ [m] }
      let vcMessages := m.viewChangeMessages.map env.parseMsg
      if vcMessages.length < getRequiredQuorum s then w₁
      else
        let s₁ := { w₁.consensus with currentView := view
                                      isPrimary := isPrimaryValidator env w₁.consensus view
                                      isViewChanging := false }
        let w₂ := { w₁ with consensus := s₁ }
        (m.preprepareMessages.map env.parseMsg).foldl (handlePrePrepareMessage env) w₂

/-- `handleConsensusMessage` (lines 297-339): the network-ingress entry
point. Drop the message on signature failure, drop stale-view messages
other than VIEW_CHANGE and NEW_VIEW, then dispatch on the type. The
leader-activity timer reset carries no modelled state. -/
def handleConsensusMessage (env : Env) (w : World) (m : ConsensusMessage) : World :=
  if ¬ verifyMessageSignature env m then w
  else if (match m.view with
           | some v => decide (v < w.consensus.currentView)
           | none => false) &&
          !(m.type == ConsensusMessageType.VIEW_CHANGE) &&
          !(m.type == ConsensusMessageType.NEW_VIEW) then w
  else
    match m.type with
    | ConsensusMessageType.PRE_PREPARE => handlePrePrepareMessage env w m
    | ConsensusMessageType.PREPARE => handlePrepareMessage env w m
    | ConsensusMessageType.COMMIT => handleCommitMessage env w m
    | ConsensusMessageType.VIEW_CHANGE => handleViewChangeMessage env w m
    | ConsensusMessageType.NEW_VIEW => handleNewViewMessage env w m

/-- `processQueuedMessage` (lines 590-652): the entry point the spec assigns
to queued messages. Drop the message on signature failure, then store it in
the table for its type with no duplicate check and no re-enqueue, crossing
the quorum side effects (COMMIT broadcast, finalization, view-change
completion) when reached; NEW_VIEW is a no-op here. A VIEW_CHANGE without a
`newView` field is modelled as leaving the state unchanged. -/
def processQueuedMessage (env : Env) (w : World) (m : ConsensusMessage) : World :=
  if ¬ verifyMessageSignature env m then w
  else
    let key := mkKey m.blockHeight m.blockHash
    match m.type with
    | ConsensusMessageType.PRE_PREPARE =>
      { w with consensus :=
          { w.consensus with
              prePrepareMessages := mapPush w.consensus.prePrepareMessages key m } }
    | ConsensusMessageType.PREPARE =>
      let s₁ := { w.consensus with prepareMessages := mapPush w.consensus.prepareMessages key m }
      let w₁ := { w with consensus := s₁ }
      if getRequiredPrepares s₁ ≤ (mapGetD s₁.prepareMessages key []).length then
        broadcastCommit env w₁ m.blockHeight m.blockHash
      else w₁
    | ConsensusMessageType.COMMIT =>
      let s₁ := { w.consensus with commitMessages := mapPush w.consensus.commitMessages key m }
      let w₁ := { w with consensus := s₁ }
      if getRequiredCommits s₁ ≤ (mapGetD s₁.commitMessages key []).length then
        finalizeBlock env w₁ m.blockHeight m.blockHash
      else w₁
    | ConsensusMessageType.VIEW_CHANGE =>
      match m.newView with
      | none => w
      | some newView =>
        let s₁ := { w.consensus with
                      viewChangeMessages := mapPush w.consensus.viewChangeMessages newView m }
        let w₁ := { w with consensus := s₁ }
        if getRequiredQuorum s₁ ≤ (mapGetD s₁.viewChangeMessages newView []).length then
          completeViewChange env w₁ newView (mapGetD s₁.viewChangeMessages newView [])
        else w₁
    | ConsensusMessageType.NEW_VIEW => w

/-- One delivered entry of `QueueService.processBatch` (queue.service.ts
lines 108-157): the consumer parses the entry and invokes
`ConsensusService.handleConsensusMessage` on it — not `processQueuedMessage`
— then acknowledges it with XACK (the acknowledgement itself carries no
modelled replica state). -/
def processBatchStep (env : Env) (w : World) (m : ConsensusMessage) : World :=
  handleConsensusMessage env w m

/-- `MAX_MEMPOOL_SIZE` (mempool.service.ts line 14). -/
def MAX_MEMPOOL_SIZE : Nat := 5000

/-- `MAX_TX_AGE` (line 17): 72 hours in seconds. -/
def MAX_TX_AGE : Nat := 72 * 60 * 60

/-- `GAS_PRICE` default (tripcoin service). -/
def GAS_PRICE : Nat := 10

/-- `TripcoinService.calculateTransactionFee`. -/
def calculateTransactionFee (gasLimit : Nat) : Nat :=
  gasLimit * GAS_PRICE

/-- `MemPoolService`'s state: the transaction map and the admission-time
map, both keyed by the transaction hash; times are `Date.now()`
milliseconds. -/
structure MempoolState : Type where
  mempool : List (String × Tx) := []
  txTimes : List (String × Nat) := []
deriving DecidableEq, Repr

/-- The sort key of the mempool's fee prioritization: `tx.fee / tx.size`
(exact rational division standing for JS numbers; a zero size divides to 0
here where JS reads NaN). -/
def feeRate (tx : Tx) : Rat :=
  tx.fee / tx.size

/-- `Math.ceil(size * 0.1)` (line 110): the ceiling of a tenth. At every
mempool size (≤ 50002) the IEEE product `size * 0.1` rounds to a value
whose ceiling is exactly `⌈size / 10⌉`, so the exact Nat form is
faithful. -/
def shedCount (n : Nat) : Nat :=
  (n + 9) / 10

/-- The ascending fee-per-size order the shedding comparator
`(a.fee / a.size) - (b.fee / b.size)` induces on mempool entries. -/
def feePairLe (a b : String × Tx) : Prop :=
  feeRate a.2 ≤ feeRate b.2

instance : DecidableRel feePairLe := fun a b =>
  inferInstanceAs (Decidable (feeRate a.2 ≤ feeRate b.2))

instance : IsTotal (String × Tx) feePairLe :=
  ⟨fun _ _ => le_total _ _⟩

instance : IsTrans (String × Tx) feePairLe :=
  ⟨fun _ _ _ => le_trans⟩

/-- The descending fee-per-size order of the block-extraction comparator
`(b.fee / b.size) - (a.fee / a.size)`. -/
def feeTxGe (a b : Tx) : Prop :=
  feeRate b ≤ feeRate a

instance : DecidableRel feeTxGe := fun a b =>
  inferInstanceAs (Decidable (feeRate b ≤ feeRate a))

/-- The ascending fee-per-size sort of the mempool entries (line 107). The
JS engine's `Array.prototype.sort` is stable, and stable sorts of a total
preorder all compute the same list, so a stable insertion sort is a
faithful model. -/
def sortedByFeeRate (entries : List (String × Tx)) : List (String × Tx) :=
  entries.insertionSort feePairLe

/-- One iteration of the shedding loop (lines 113-118): delete the entry's
key from both maps. -/
def shedStep (acc : MempoolState) (e : String × Tx) : MempoolState :=
  { mempool := mapDelete acc.mempool e.1, txTimes := mapDelete acc.txTimes e.1 }

/-- `removeLowestFeeTransactions` (lines 104-119): sort ascending by
fee-per-size and delete the first `⌈size·0.1⌉` entries from both maps. -/
def removeLowestFeeTransactions (mp : MempoolState) : MempoolState :=
  (List.take (shedCount mp.mempool.length) (sortedByFeeRate mp.mempool)).foldl shedStep mp

/-- The structural half of `validateTransaction` (lines 53-68): `hash`,
`from`, `to` and `amount` must all be truthy (a JS empty string and a zero
amount are falsy). -/
def txStructOk (tx : Tx) : Bool :=
  decide (tx.hash ≠ "") && decide (tx.sender ≠ "") &&
    decide (tx.recipient ≠ "") && decide (tx.amount ≠ 0)

/-- `validateTransaction` (lines 53-68): structural check, then reject a
hash already in the mempool, then the external balance check
`tripcoin.validateTransaction(from, amount, calculateTransactionFee(gasLimit))`,
whose awaited outcome is the `balanceOk` oracle. -/
def validateTransaction (mp : MempoolState) (tx : Tx) (balanceOk : Bool) : Bool :=
  txStructOk tx && !(mapLookup mp.mempool tx.hash).isSome && balanceOk

/-- The admission half of `addTransaction` (lines 40-45): validate, then
store the transaction and its admission time. -/
def admitTransaction (mp : MempoolState) (now : Nat) (tx : Tx) (balanceOk : Bool) :
    MempoolState × Bool :=
  if validateTransaction mp tx balanceOk then
    ({ mempool := mapSet mp.mempool tx.hash tx, txTimes := mapSet mp.txTimes tx.hash now }, true)
  else (mp, false)

/-- `addTransaction` (lines 33-46): shed the lowest-fee tenth first whenever
the mempool is at or above `MAX_MEMPOOL_SIZE`, then attempt admission. -/
def addTransaction (mp : MempoolState) (now : Nat) (tx : Tx) (balanceOk : Bool) :
    MempoolState × Bool :=
  admitTransaction
    (if MAX_MEMPOOL_SIZE ≤ mp.mempool.length then removeLowestFeeTransactions mp else mp)
    now tx balanceOk

/-- `getTransactionsForBlock` (lines 76-82): the highest fee-per-size
transactions, at most `maxSize` of them; reads the state without changing
it. -/
def getTransactionsForBlock (mp : MempoolState) (maxSize : Nat) : List Tx :=
  List.take maxSize ((mp.mempool.map (·.2)).insertionSort feeTxGe)

/-- Whether the sweep condition `(now - time) / 1000 > MAX_TX_AGE` holds for
the entry of `hash`; the exact millisecond comparison is equivalent to the
IEEE division the source performs at these magnitudes, and a `now` earlier
than the admission time (negative JS difference) fails the comparison just
as truncated Nat subtraction does. -/
def expiredAt (mp : MempoolState) (now : Nat) (hash : String) : Bool :=
  match mapLookup mp.txTimes hash with
  | some t => decide (MAX_TX_AGE * 1000 < now - t)
  | none => false

/-- `cleanupOldTransactions` (lines 89-98): the scheduled sweep walks the
admission-time entries and deletes every transaction strictly older than
`MAX_TX_AGE` from both maps (deleting the entry under iteration is safe in
a JS `Map`, and with unique keys the walk is this filter). -/
def cleanupOldTransactions (mp : MempoolState) (now : Nat) : MempoolState :=
  { mempool := mp.mempool.filter (fun e => !expiredAt mp now e.1)
    txTimes := mp.txTimes.filter (fun e => decide (¬ MAX_TX_AGE * 1000 < now - e.2)) }

/-- The mempool operations of the claim: admission, block extraction, the
scheduled sweep, and shedding. -/
inductive MempoolOp : Type
  | add (now : Nat) (tx : Tx) (balanceOk : Bool)
  | pick (maxSize : Nat)
  | sweep (now : Nat)
  | shed
deriving DecidableEq, Repr

/-- Apply one operation to the mempool state; `pick` reads without
modifying. -/
def applyMempoolOp (mp : MempoolState) : MempoolOp → MempoolState
  | MempoolOp.add now tx balanceOk => (addTransaction mp now tx balanceOk).1
  | MempoolOp.pick _ => mp
  | MempoolOp.sweep now => cleanupOldTransactions mp now
  | MempoolOp.shed => removeLowestFeeTransactions mp

/-- Run an operation sequence from the empty mempool. -/
def runMempoolOps (ops : List MempoolOp) : MempoolState :=
  ops.foldl applyMempoolOp {}

/-- The mempool invariant of the claim: bounded size and no duplicate
hashes (in either map). -/
def MempoolInv (mp : MempoolState) : Prop :=
  mp.mempool.length ≤ MAX_MEMPOOL_SIZE ∧ (mp.mempool.map (·.1)).Nodup ∧
    (mp.txTimes.map (·.1)).Nodup

instance : DecidablePred MempoolInv := fun mp => by
  unfold MempoolInv
  infer_instance

/-- Per-validator uniqueness of a message table: no stored list holds two
messages from the same validator. -/
def TableDedup (t : List (String × List ConsensusMessage)) : Prop :=
  ∀ p ∈ t, (p.2.map (·.validator)).Nodup

instance : DecidablePred TableDedup := fun t => by
  unfold TableDedup
  infer_instance

/-- A placeholder message, the parse result of an unconstrained payload. -/
def defaultMsg : ConsensusMessage :=
  { type := ConsensusMessageType.PREPARE
    blockHeight := 0
    blockHash := ""
    validator := ""
    signature := "" }

/-- A concrete environment for evaluating the handlers: the local node is
`addrSelf`, signing is opaque and verification accepts everything. -/
def envTrue : Env :=
  { localAddress := "addrSelf"
    signMessage := fun _ => "sig"
    signString := fun s => s
    verifySignature := fun _ _ _ => true
    serializeMsg := fun _ => "ser"
    parseMsg := fun _ => defaultMsg
    sha256Block := fun _ => "H"
    pendingBlocks := fun _ => []
    rewardValidators := ["addrSelf"] }

/-- The four-validator set with the local node first: the local node is the
leader of view 0. -/
def fourValidators : List String :=
  ["addrSelf", "validator2", "validator3", "validator4"]

/-- A replica state with four active validators, view 0, everything else
fresh. -/
def sFour : ConsensusState :=
  { activeValidators := fourValidators }

/-- A world in which the local node is the leader of the current view. -/
def wLeader : World :=
  { consensus := sFour }

/-- A PRE_PREPARE for height 1 sent by `validator2`, who is not the leader
of view 0. -/
def mPrePrepareForeign : ConsensusMessage :=
  { type := ConsensusMessageType.PRE_PREPARE
    blockHeight := 1
    blockHash := "h1"
    validator := "validator2"
    view := some 0
    signature := "s2" }

/-- A PREPARE for height 1 from `validator2`. -/
def mPrepareV2 : ConsensusMessage :=
  { type := ConsensusMessageType.PREPARE
    blockHeight := 1
    blockHash := "h1"
    validator := "validator2"
    view := some 0
    signature := "s2" }

/-- An environment whose verify primitive accepts exactly the key
`PK_A` — the registry public key of `addrA` — and rejects every other
key argument, the address `addrA` itself included. -/
def envKeyed : Env :=
  { envTrue with verifySignature := fun _ _ publicKey => publicKey == "PK_A" }

/-- The registry of the spec: `addrA` is a registered validator whose
public key is `PK_A`. -/
def registryA (addr : String) : String :=
  if addr = "addrA" then "PK_A" else ""

/-- A PREPARE from the registered validator `addrA`, validly signed with
respect to the registry key (every signature checked against `PK_A`
verifies under `envKeyed`). -/
def mFromAddrA : ConsensusMessage :=
  { type := ConsensusMessageType.PREPARE
    blockHeight := 1
    blockHash := "h1"
    validator := "addrA"
    view := some 0
    signature := "sigA" }

/-- A VIEW_CHANGE from `validator2` targeting view 1. -/
def mViewChangeV2 : ConsensusMessage :=
  { type := ConsensusMessageType.VIEW_CHANGE
    blockHeight := 0
    blockHash := ""
    validator := "validator2"
    view := some 0
    newView := some 1
    lastPreparedSeqNum := some 0
    signature := "s2" }

/-- A replica mid view change toward view 1, holding a single VIEW_CHANGE
for it — below the quorum of 3. -/
def wStuckViewChange : World :=
  { consensus :=
      { sFour with isViewChanging := true
                   viewChangeMessages := [(1, [mViewChangeV2])] } }

/-- A block with an empty body at height 1, whose hash field carries
exactly the digest `envTrue.sha256Block` assigns to its preimage. -/
def bFin : Block :=
  { index := 1
    timestamp := "t1"
    transactions := some []
    criticalProcesses := some []
    previousHash := "h0"
    hash := "H"
    nonce := 0
    signature := "sb"
    validator := "addrA" }

/-- A world whose store holds `bFin` under its hash, with supply 100 and no
view change in progress. -/
def wFin : World :=
  { consensus := sFour
    chain := { blocks := [("H", bFin)] }
    supply := 100 }

/-- The world after finalizing `(1, "H")` once from `wFin`. -/
def wFinOnce : World :=
  finalizeBlock envTrue wFin 1 "H"

/-- A transaction whose structural fields are all truthy. -/
def txW : Tx :=
  { hash := "tx1"
    sender := "acctA"
    recipient := "acctB"
    amount := 5
    gasLimit := 3
    fee := 30
    size := 10 }

/-- A mempool of exactly `MAX_MEMPOOL_SIZE` entries (all bindings alias one
key, which the size-guard equation does not care about). -/
def mpBig : MempoolState :=
  { mempool := List.replicate MAX_MEMPOOL_SIZE ("k", txW)
    txTimes := [] }

/-- A transaction with fee rate 1. -/
def txA : Tx := { txW with hash := "a", fee := 10, size := 10 }

/-- A transaction with fee rate 2. -/
def txB : Tx := { txW with hash := "b", fee := 20, size := 10 }

/-- A transaction with fee rate 3. -/
def txC : Tx := { txW with hash := "c", fee := 30, size := 10 }

/-- Three mempool entries with pairwise distinct keys and fee rates 1 < 2
< 3, listed in ascending order. -/
def mpThree : MempoolState :=
  { mempool := [("a", txA), ("b", txB), ("c", txC)]
    txTimes := [("a", 0), ("b", 0), ("c", 0)] }

/-- A mempool holding one transaction admitted at time 0. -/
def mpAged : MempoolState :=
  { mempool := [("t1", { txW with hash := "t1" })]
    txTimes := [("t1", 0)] }

/-- A block record with every preimage field populated and the hash left
default. -/
def bBase : Block :=
  { index := 2
    timestamp := "ts"
    transactions := some [txW]
    criticalProcesses := some [{ processId := "p1", hashData := "hd1" }]
    previousHash := "hPrev"
    nonce := 7
    signature := "sigB"
    validator := "" }

/-- `bBase` with its hash made consistent with `calculateHash`. -/
def bConsistent : Block :=
  { bBase with hash := calculateHash envTrue bBase }

/-- C5: the required quorum equals floor(2N/3)+1 over the active-validator
count, the PREPARE, COMMIT and VIEW-CHANGE quorum checks all use this same
threshold (`getRequiredPrepares`, `getRequiredCommits` and
`getRequiredQuorum` coincide on every state), and with N = 4 every phase
requires exactly 3 messages. -/
theorem quorum_uniform_formula (s : ConsensusState) :
    getRequiredQuorum s = 2 * getTotalValidators s / 3 + 1 ∧
    getRequiredPrepares s = getRequiredQuorum s ∧
    getRequiredCommits s = getRequiredQuorum s ∧
    (getTotalValidators s = 4 →
      getRequiredQuorum s = 3 ∧ getRequiredPrepares s = 3 ∧ getRequiredCommits s = 3) := by
  refine ⟨?_, rfl, rfl, fun h => ?_⟩
  · unfold getRequiredQuorum
    rw [Nat.mul_comm]
  · simp [getRequiredQuorum, getRequiredPrepares, getRequiredCommits, h]

/-- Witness for C5 at the concrete four-validator state. -/
theorem quorum_uniform_formula_witness :
    getTotalValidators sFour = 4 ∧ getRequiredQuorum sFour = 3 ∧
      getRequiredPrepares sFour = 3 ∧ getRequiredCommits sFour = 3 :=
  ⟨by decide, (quorum_uniform_formula sFour).2.2.2 (by decide)⟩

/-- C1: evaluation of the code at the failing input. With the local node
the leader of view 0, a PRE_PREPARE whose sender `validator2` is not the
leader is nevertheless accepted by `handlePrePrepareMessage` — the message
is stored in the `prePrepareMessages` table — because the source rejects
only when the local node is not primary and the sender is not the leader,
contradicting the claim (and the source's own comment) that only the
leader's PRE_PREPARE is accepted. -/
theorem prePrepare_foreign_sender_accepted :
    mPrePrepareForeign.validator ≠ "addrSelf" ∧
    wLeader.consensus.activeValidators.get?
        (wLeader.consensus.currentView % wLeader.consensus.activeValidators.length) =
      some "addrSelf" ∧
    (handleConsensusMessage envTrue wLeader mPrePrepareForeign).consensus.prePrepareMessages =
      [("1:h1", [mPrePrepareForeign])] := by
  decide

/-- C3: evaluation of the code at the failing input. The stream consumer's
per-entry action (`processBatch` calls `handleConsensusMessage`, not
`processQueuedMessage`) re-enqueues the very PREPARE it consumed onto the
`consensus_messages` stream, so a queued message is not applied exactly
once: it is delivered again on a later cycle. -/
theorem consumer_reenqueues_consumed_message :
    (processBatchStep envTrue { consensus := sFour } mPrepareV2).enqueued = [mPrepareV2] := by
  decide

/-- C4: evaluation of the code at the failing input. Under an environment
whose verify primitive accepts exactly the registry public key `PK_A` of
validator `addrA`, a message validly signed with respect to the registry
(`verifyMessageSignatureSpec` returns true) is dropped by both entry
points, because `verifyMessageSignature` passes the address
`m.validator` itself — not the registry public key — in the public-key
position. -/
theorem signature_checked_against_address_not_registry :
    verifyMessageSignatureSpec envKeyed registryA mFromAddrA = true ∧
    verifyMessageSignature envKeyed mFromAddrA = false ∧
    handleConsensusMessage envKeyed { consensus := sFour } mFromAddrA = { consensus := sFour } ∧
    processQueuedMessage envKeyed { consensus := sFour } mFromAddrA = { consensus := sFour } := by
  decide

/-- C7: evaluation of the code at the failing input. With a view change
toward view 1 in progress and only one collected VIEW_CHANGE (below the
quorum of 3), the secondary-timer check leaves the world completely
unchanged: the escalation path calls `initiateViewChange`, which returns
immediately because `isViewChanging` is already set, so no incremented
VIEW_CHANGE is built, stored, enqueued or broadcast. -/
theorem viewchange_escalation_is_noop :
    (mapGetD wStuckViewChange.consensus.viewChangeMessages 1 []).length <
      getRequiredQuorum wStuckViewChange.consensus ∧
    checkViewChangeProgress envTrue wStuckViewChange 1 = wStuckViewChange := by
  decide

/-- C2 counterexample: the queued-message path stores the same PREPARE from
`validator2` twice under the same key — the table holds two messages from
one validator, refuting the claim that deduplication holds regardless of
which path a message arrives through. -/
theorem queued_prepare_duplicate_stored :
    (processQueuedMessage envTrue
        (processQueuedMessage envTrue { consensus := sFour } mPrepareV2)
        mPrepareV2).consensus.prepareMessages = [("1:h1", [mPrepareV2, mPrepareV2])] ∧
    ¬ (([mPrepareV2, mPrepareV2].map (·.validator)).Nodup) := by
  decide

/-- C6 counterexample: finalizing `(1, "H")` a second time mints the block
reward again — the total supply grows by `BLOCK_REWARD` — so the second
call is not a no-op. -/
theorem finalize_twice_mints_again :
    (finalizeBlock envTrue wFinOnce 1 "H").supply = wFinOnce.supply + BLOCK_REWARD ∧
    finalizeBlock envTrue wFinOnce 1 "H" ≠ wFinOnce := by
  decide

/-- C9 counterexample: a transaction admitted at time 0 and swept at time
`MAX_TX_AGE * 1000` — aged exactly `MAX_TX_AGE` — is not removed: the
source's strict comparison keeps it, refuting the claim that the sweep
removes it on that tick. -/
theorem sweep_keeps_exactly_max_age :
    expiredAt mpAged (MAX_TX_AGE * 1000) "t1" = false ∧
    cleanupOldTransactions mpAged (MAX_TX_AGE * 1000) = mpAged := by
  decide

/-- C10: assigning a validator does not disturb the hash preimage, so
forging a block whose hash field is consistent with `calculateHash` leaves
the hash unchanged (and sets the validator): the preimage covers index,
previousHash, timestamp, transactions, critical-process hash data, nonce
and signature, but not the validator field. -/
theorem forge_preserves_consistent_hash (env : Env) (v : String) (b : Block)
    (h : b.hash = calculateHash env b) :
    hashPreimage { b with validator := v } = hashPreimage b ∧
    (forgeBlock env v b).hash = b.hash ∧
    (forgeBlock env v b).validator = v := by
  exact ⟨rfl, h.symm, rfl⟩

/-- Witness for C10 at a concrete fully-populated block. -/
theorem forge_preserves_consistent_hash_witness :
    bConsistent.hash = calculateHash envTrue bConsistent ∧
    (forgeBlock envTrue "validator2" bConsistent).hash = bConsistent.hash :=
  ⟨by decide, (forge_preserves_consistent_hash envTrue "validator2" bConsistent (by decide)).2.1⟩

theorem mapLookup_eq_none_of_not_mem_keys {α β : Type} [DecidableEq α]
    {m : List (α × β)} {k : α} (h : k ∉ m.map (·.1)) : mapLookup m k = none := by
  induction m with
  | nil => rfl
  | cons e rest ih =>
    simp only [List.map_cons, List.mem_cons, not_or] at h
    simp only [mapLookup]
    rw [if_neg (fun hk => h.1 hk.symm)]
    exact ih h.2

theorem keys_filter_sublist {α β : Type} (p : α × β → Bool) (m : List (α × β)) :
    ((m.filter p).map (·.1)).Sublist (m.map (·.1)) :=
  (List.filter_sublist m).map _

theorem mapLookup_filter {α β : Type} [DecidableEq α] {p : α × β → Bool}
    {m : List (α × β)} (hN : (m.map (·.1)).Nodup) (k : α) :
    mapLookup (m.filter p) k =
      (match mapLookup m k with
       | some v => if p (k, v) then some v else none
       | none => none) := by
  induction m with
  | nil => rfl
  | cons e rest ih =>
    obtain ⟨k₁, v₁⟩ := e
    simp only [List.map_cons, List.nodup_cons] at hN
    by_cases hk : k₁ = k
    · subst hk
      cases hp : p (k₁, v₁) with
      | true => simp [List.filter_cons, hp, mapLookup]
      | false =>
        have hnone : mapLookup (rest.filter p) k₁ =
            (none : Option β) :=
          mapLookup_eq_none_of_not_mem_keys
            (fun hmem => hN.1 ((keys_filter_sublist p rest).subset hmem))
        simp [List.filter_cons, hp, mapLookup, hnone]
    · cases hp : p (k₁, v₁) with
      | true => simp [List.filter_cons, hp, mapLookup, hk, ih hN.2]
      | false => simp [List.filter_cons, hp, mapLookup, hk, ih hN.2]

/-- C9 amended: the scheduled sweep removes exactly the entries whose age
is strictly greater than `MAX_TX_AGE`; an entry aged exactly `MAX_TX_AGE`
is kept on that tick (both the transaction and its admission-time record
follow the same strict rule). -/
theorem sweep_removes_strictly_older (mp : MempoolState) (now : Nat) (h : String) (t : Nat)
    (hTimes : (mp.txTimes.map (·.1)).Nodup) (hMem : (mp.mempool.map (·.1)).Nodup)
    (hl : mapLookup mp.txTimes h = some t) :
    mapLookup (cleanupOldTransactions mp now).txTimes h =
      (if MAX_TX_AGE * 1000 < now - t then none else some t) ∧
    mapLookup (cleanupOldTransactions mp now).mempool h =
      (if MAX_TX_AGE * 1000 < now - t then none else mapLookup mp.mempool h) := by
  constructor
  · show mapLookup (mp.txTimes.filter _) h = _
    rw [mapLookup_filter hTimes, hl]
    by_cases hA : MAX_TX_AGE * 1000 < now - t <;> simp [hA]
  · show mapLookup (mp.mempool.filter _) h = _
    rw [mapLookup_filter hMem]
    cases hm : mapLookup mp.mempool h with
    | none => by_cases hA : MAX_TX_AGE * 1000 < now - t <;> simp [hA]
    | some v =>
      by_cases hA : MAX_TX_AGE * 1000 < now - t <;>
        simp [hA, expiredAt, hl]

/-- Witness for the amended C9: one millisecond past the exact age, the
sweep removes the entry from both maps. -/
theorem sweep_removes_strictly_older_witness :
    mapLookup (cleanupOldTransactions mpAged (MAX_TX_AGE * 1000 + 1)).txTimes "t1" = none ∧
    mapLookup (cleanupOldTransactions mpAged (MAX_TX_AGE * 1000 + 1)).mempool "t1" = none := by
  have hres := sweep_removes_strictly_older mpAged (MAX_TX_AGE * 1000 + 1) "t1" 0
    (by decide) (by decide) (by decide)
  simpa using hres

theorem mem_mapSet {α β : Type} [DecidableEq α] {m : List (α × β)} {k : α} {v : β}
    {p : α × β} (h : p ∈ mapSet m k v) : p = (k, v) ∨ p ∈ m := by
  induction m with
  | nil => simpa [mapSet] using h
  | cons e rest ih =>
    by_cases hk : e.1 = k
    · simp only [mapSet, if_pos hk, List.mem_cons] at h
      rcases h with h | h
      · exact Or.inl h
      · exact Or.inr (List.mem_cons_of_mem _ h)
    · simp only [mapSet, if_neg hk, List.mem_cons] at h
      rcases h with h | h
      · exact Or.inr (h ▸ List.mem_cons_self _ _)
      · rcases ih h with h | h
        · exact Or.inl h
        · exact Or.inr (List.mem_cons_of_mem _ h)

theorem mem_keys_mapSet {α β : Type} [DecidableEq α] {m : List (α × β)} {k : α} {v : β}
    {x : α} (h : x ∈ (mapSet m k v).map (·.1)) : x = k ∨ x ∈ m.map (·.1) := by
  rcases List.mem_map.mp h with ⟨p, hp, hx⟩
  rcases mem_mapSet hp with h₁ | h₁
  · left
    rw [← hx, h₁]
  · right
    exact hx ▸ List.mem_map_of_mem _ h₁

theorem nodup_keys_mapSet {α β : Type} [DecidableEq α] {m : List (α × β)} (k : α) (v : β)
    (h : (m.map (·.1)).Nodup) : ((mapSet m k v).map (·.1)).Nodup := by
  induction m with
  | nil => simp [mapSet]
  | cons e rest ih =>
    simp only [List.map_cons, List.nodup_cons] at h
    by_cases hk : e.1 = k
    · subst hk
      simpa [mapSet, List.nodup_cons] using h
    · simp only [mapSet, if_neg hk, List.map_cons, List.nodup_cons]
      refine ⟨fun hmem => ?_, ih h.2⟩
      rcases mem_keys_mapSet hmem with h₁ | h₁
      · exact hk h₁
      · exact h.1 h₁

theorem length_mapSet_le {α β : Type} [DecidableEq α] (m : List (α × β)) (k : α) (v : β) :
    (mapSet m k v).length ≤ m.length + 1 := by
  induction m with
  | nil => simp [mapSet]
  | cons e rest ih =>
    by_cases hk : e.1 = k
    · simp [mapSet, if_pos hk]
    · simp only [mapSet, if_neg hk, List.length_cons]
      omega

theorem length_mapSet_of_lookup_none {α β : Type} [DecidableEq α] {m : List (α × β)}
    {k : α} (v : β) (h : mapLookup m k = none) :
    (mapSet m k v).length = m.length + 1 := by
  induction m with
  | nil => simp [mapSet]
  | cons e rest ih =>
    by_cases hk : e.1 = k
    · simp [mapLookup, if_pos hk] at h
    · simp only [mapLookup, if_neg hk] at h
      simp only [mapSet, if_neg hk, List.length_cons, ih h]

theorem mapDelete_eq_self_of_not_mem {α β : Type} [DecidableEq α] {m : List (α × β)}
    {k : α} (h : k ∉ m.map (·.1)) : mapDelete m k = m := by
  rw [mapDelete, List.filter_eq_self]
  intro e he
  simp only [decide_eq_true_eq]
  intro hk
  exact h (hk ▸ List.mem_map_of_mem _ he)

theorem length_mapDelete_le {α β : Type} [DecidableEq α] (m : List (α × β)) (k : α) :
    (mapDelete m k).length ≤ m.length :=
  List.length_filter_le _ m

theorem length_mapDelete_of_isSome {α β : Type} [DecidableEq α] {m : List (α × β)}
    {k : α} (hN : (m.map (·.1)).Nodup) (h : (mapLookup m k).isSome) :
    (mapDelete m k).length + 1 = m.length := by
  induction m with
  | nil => simp [mapLookup] at h
  | cons e rest ih =>
    simp only [List.map_cons, List.nodup_cons] at hN
    by_cases hk : e.1 = k
    · have hrest : mapDelete rest k = rest :=
        mapDelete_eq_self_of_not_mem (hk ▸ hN.1)
      calc (mapDelete (e :: rest) k).length + 1
          = (mapDelete rest k).length + 1 := by
            simp [mapDelete, List.filter_cons, hk]
        _ = rest.length + 1 := by rw [hrest]
        _ = (e :: rest).length := by simp
    · simp only [mapLookup, if_neg hk] at h
      have hih := ih hN.2 h
      calc (mapDelete (e :: rest) k).length + 1
          = (mapDelete rest k).length + 1 + 1 := by
            simp [mapDelete, List.filter_cons, hk]
      _ = rest.length + 1 := by rw [hih]
      _ = (e :: rest).length := by simp

theorem mapLookup_mapDelete_ne {α β : Type} [DecidableEq α] {m : List (α × β)}
    {k k₂ : α} (h : k₂ ≠ k) : mapLookup (mapDelete m k) k₂ = mapLookup m k₂ := by
  induction m with
  | nil => rfl
  | cons e rest ih =>
    by_cases hk : e.1 = k
    · have hne : ¬ e.1 = k₂ := fun hc => h ((hc ▸ hk : k₂ = k))
      calc mapLookup (mapDelete (e :: rest) k) k₂
          = mapLookup (mapDelete rest k) k₂ := by
            simp [mapDelete, List.filter_cons, hk]
        _ = mapLookup rest k₂ := ih
        _ = mapLookup (e :: rest) k₂ := by simp [mapLookup, hne]
    · by_cases hk₂ : e.1 = k₂
      · simp [mapDelete, List.filter_cons, hk, mapLookup, hk₂, h]
      · calc mapLookup (mapDelete (e :: rest) k) k₂
            = mapLookup (mapDelete rest k) k₂ := by
              simp [mapDelete, List.filter_cons, hk, mapLookup, hk₂]
          _ = mapLookup rest k₂ := ih
          _ = mapLookup (e :: rest) k₂ := by simp [mapLookup, hk₂]

theorem nodup_keys_mapDelete {α β : Type} [DecidableEq α] {m : List (α × β)} (k : α)
    (h : (m.map (·.1)).Nodup) : ((mapDelete m k).map (·.1)).Nodup :=
  List.Nodup.sublist (keys_filter_sublist _ m) h

theorem mapLookup_isSome_of_mem {α β : Type} [DecidableEq α] {m : List (α × β)}
    {k : α} {v : β} (h : (k, v) ∈ m) : (mapLookup m k).isSome := by
  induction m with
  | nil => simp at h
  | cons e rest ih =>
    by_cases hk : e.1 = k
    · simp [mapLookup, hk]
    · rcases List.mem_cons.mp h with h₁ | h₁
      · exact absurd (congrArg Prod.fst h₁.symm) hk
      · simpa [mapLookup, hk] using ih h₁

theorem mapLookup_isSome_of_mem_keys {α β : Type} [DecidableEq α] {m : List (α × β)}
    {k : α} (h : k ∈ m.map (·.1)) : (mapLookup m k).isSome := by
  rcases List.mem_map.mp h with ⟨p, hp, hfst⟩
  obtain ⟨k₁, v₁⟩ := p
  simp only at hfst
  subst hfst
  exact mapLookup_isSome_of_mem hp

theorem shedFold_nodup (es : List (String × Tx)) (mp : MempoolState)
    (h₁ : (mp.mempool.map (·.1)).Nodup) (h₂ : (mp.txTimes.map (·.1)).Nodup) :
    (((es.foldl shedStep mp).mempool.map (·.1)).Nodup ∧
      ((es.foldl shedStep mp).txTimes.map (·.1)).Nodup) := by
  induction es generalizing mp with
  | nil => exact ⟨h₁, h₂⟩
  | cons e rest ih =>
    exact ih (shedStep mp e) (nodup_keys_mapDelete e.1 h₁) (nodup_keys_mapDelete e.1 h₂)

theorem shedFold_length_le (es : List (String × Tx)) (mp : MempoolState) :
    (es.foldl shedStep mp).mempool.length ≤ mp.mempool.length := by
  induction es generalizing mp with
  | nil => exact Nat.le_refl _
  | cons e rest ih =>
    exact le_trans (ih (shedStep mp e)) (length_mapDelete_le mp.mempool e.1)

theorem shedFold_length_eq (es : List (String × Tx)) (mp : MempoolState)
    (hKeys : (es.map (·.1)).Nodup)
    (hPresent : ∀ e ∈ es, (mapLookup mp.mempool e.1).isSome)
    (hN : (mp.mempool.map (·.1)).Nodup) :
    (es.foldl shedStep mp).mempool.length + es.length = mp.mempool.length := by
  induction es generalizing mp with
  | nil => simp
  | cons e rest ih =>
    simp only [List.map_cons, List.nodup_cons] at hKeys
    have hdel : (mapDelete mp.mempool e.1).length + 1 = mp.mempool.length :=
      length_mapDelete_of_isSome hN (hPresent e (List.mem_cons_self _ _))
    have hpres : ∀ e₂ ∈ rest, (mapLookup (shedStep mp e).mempool e₂.1).isSome := by
      intro e₂ he₂
      have hne : e₂.1 ≠ e.1 := by
        intro hc
        exact hKeys.1 (hc ▸ List.mem_map_of_mem _ he₂)
      rw [shedStep]
      rw [mapLookup_mapDelete_ne hne]
      exact hPresent e₂ (List.mem_cons_of_mem _ he₂)
    have := ih (shedStep mp e) hKeys.2 hpres (nodup_keys_mapDelete e.1 hN)
    simp only [shedStep] at this
    simp only [List.foldl_cons, List.length_cons, shedStep]
    omega

theorem shedCount_le (n : Nat) : shedCount n ≤ n := by
  unfold shedCount
  omega

theorem removeLowest_length (mp : MempoolState) (hN : (mp.mempool.map (·.1)).Nodup) :
    (removeLowestFeeTransactions mp).mempool.length + shedCount mp.mempool.length =
      mp.mempool.length := by
  have hperm : (sortedByFeeRate mp.mempool).Perm mp.mempool :=
    List.perm_insertionSort feePairLe mp.mempool
  have hsortedN : ((sortedByFeeRate mp.mempool).map (·.1)).Nodup :=
    ((hperm.map (·.1)).nodup_iff).mpr hN
  have htakeN :
      ((List.take (shedCount mp.mempool.length) (sortedByFeeRate mp.mempool)).map (·.1)).Nodup :=
    List.Nodup.sublist ((List.take_sublist _ _).map _) hsortedN
  have hpres : ∀ e ∈ List.take (shedCount mp.mempool.length) (sortedByFeeRate mp.mempool),
      (mapLookup mp.mempool e.1).isSome := by
    intro e he
    obtain ⟨k, tx⟩ := e
    exact mapLookup_isSome_of_mem (hperm.subset ((List.take_sublist _ _).subset he))
  have hlen :
      (List.take (shedCount mp.mempool.length) (sortedByFeeRate mp.mempool)).length =
        shedCount mp.mempool.length := by
    rw [List.length_take]
    refine Nat.min_eq_left ?_
    rw [hperm.length_eq]
    exact shedCount_le _
  have := shedFold_length_eq
    (List.take (shedCount mp.mempool.length) (sortedByFeeRate mp.mempool)) mp htakeN hpres hN
  rw [hlen] at this
  exact this

theorem inv_removeLowest (mp : MempoolState) (h : MempoolInv mp) :
    MempoolInv (removeLowestFeeTransactions mp) := by
  obtain ⟨hlen, hN, hT⟩ := h
  have hfold := shedFold_nodup
    (List.take (shedCount mp.mempool.length) (sortedByFeeRate mp.mempool)) mp hN hT
  exact ⟨le_trans (shedFold_length_le _ mp) hlen, hfold.1, hfold.2⟩

theorem inv_addTransaction (mp : MempoolState) (now : Nat) (tx : Tx) (balanceOk : Bool)
    (h : MempoolInv mp) : MempoolInv (addTransaction mp now tx balanceOk).1 := by
  rw [addTransaction]
  set mp₁ := if MAX_MEMPOOL_SIZE ≤ mp.mempool.length then removeLowestFeeTransactions mp else mp
    with hmp₁
  have hInv₁ : MempoolInv mp₁ := by
    rw [hmp₁]
    split
    · exact inv_removeLowest mp h
    · exact h
  have hroom : mp₁.mempool.length + 1 ≤ MAX_MEMPOOL_SIZE := by
    rw [hmp₁]
    split
    · rename_i hfull
      have hcount := removeLowest_length mp h.2.1
      have hexact : mp.mempool.length = MAX_MEMPOOL_SIZE := le_antisymm h.1 hfull
      rw [hexact] at hcount
      unfold MAX_MEMPOOL_SIZE at hcount ⊢
      unfold shedCount at hcount
      omega
    · rename_i hnotfull
      omega
  rw [admitTransaction]
  split
  · rename_i hval
    have hnone : mapLookup mp₁.mempool tx.hash = none := by
      rw [validateTransaction] at hval
      simp only [Bool.and_eq_true, Bool.not_eq_true] at hval
      cases hlook : mapLookup mp₁.mempool tx.hash with
      | none => rfl
      | some v =>
        rw [hlook] at hval
        simp at hval
    refine ⟨?_, nodup_keys_mapSet tx.hash tx hInv₁.2.1, nodup_keys_mapSet tx.hash now hInv₁.2.2⟩
    rw [length_mapSet_of_lookup_none tx hnone]
    exact hroom
  · exact hInv₁

theorem inv_cleanup (mp : MempoolState) (now : Nat) (h : MempoolInv mp) :
    MempoolInv (cleanupOldTransactions mp now) := by
  obtain ⟨hlen, hN, hT⟩ := h
  refine ⟨le_trans (List.length_filter_le _ _) hlen, ?_, ?_⟩
  · exact List.Nodup.sublist (keys_filter_sublist _ mp.mempool) hN
  · exact List.Nodup.sublist (keys_filter_sublist _ mp.txTimes) hT

theorem applyMempoolOp_inv (mp : MempoolState) (op : MempoolOp) (h : MempoolInv mp) :
    MempoolInv (applyMempoolOp mp op) := by
  cases op with
  | add now tx balanceOk => exact inv_addTransaction mp now tx balanceOk h
  | pick _ => exact h
  | sweep now => exact inv_cleanup mp now h
  | shed => exact inv_removeLowest mp h

theorem runMempoolOps_inv (ops : List MempoolOp) : MempoolInv (runMempoolOps ops) := by
  rw [runMempoolOps]
  have hgen : ∀ mp, MempoolInv mp → MempoolInv (ops.foldl applyMempoolOp mp) := by
    induction ops with
    | nil => exact fun mp h => h
    | cons op rest ih =>
      exact fun mp h => ih (applyMempoolOp mp op) (applyMempoolOp_inv mp op h)
  exact hgen {} (by decide)

theorem sorted_take_drop_feeRate (entries : List (String × Tx)) (c : Nat)
    {x y : String × Tx} (hx : x ∈ List.take c (sortedByFeeRate entries))
    (hy : y ∈ List.drop c (sortedByFeeRate entries)) : feeRate x.2 ≤ feeRate y.2 := by
  have hs : List.Pairwise feePairLe (sortedByFeeRate entries) :=
    List.sorted_insertionSort feePairLe entries
  rw [← List.take_append_drop c (sortedByFeeRate entries)] at hs
  rcases List.pairwise_append.mp hs with ⟨_, _, hcross⟩
  exact hcross x hx y hy

/-- C8: from the empty mempool, every sequence of add / pick / sweep / shed
operations preserves the invariant (size at most `MAX_MEMPOOL_SIZE`, no two
entries sharing a hash); an `addTransaction` at (or beyond) the cap runs
the shed first and only then attempts admission; the shed removes exactly
`⌈size·0.1⌉` entries (on duplicate-free states); and every shed entry has a
fee-per-size no greater than every kept one. -/
theorem mempool_bounded_and_shed :
    (∀ ops, MempoolInv (runMempoolOps ops)) ∧
    (∀ mp now tx balanceOk, MAX_MEMPOOL_SIZE ≤ mp.mempool.length →
      addTransaction mp now tx balanceOk =
        admitTransaction (removeLowestFeeTransactions mp) now tx balanceOk) ∧
    (∀ mp : MempoolState, (mp.mempool.map (·.1)).Nodup →
      (removeLowestFeeTransactions mp).mempool.length + shedCount mp.mempool.length =
        mp.mempool.length) ∧
    (∀ (mp : MempoolState) (x y : String × Tx),
      x ∈ List.take (shedCount mp.mempool.length) (sortedByFeeRate mp.mempool) →
      y ∈ List.drop (shedCount mp.mempool.length) (sortedByFeeRate mp.mempool) →
      feeRate x.2 ≤ feeRate y.2) := by
  refine ⟨runMempoolOps_inv, fun mp now tx balanceOk hfull => ?_, removeLowest_length,
    fun mp x y hx hy => sorted_take_drop_feeRate mp.mempool _ hx hy⟩
  rw [addTransaction, if_pos hfull]

/-- Witness for C8: a concrete run obeys the invariant; at a concrete
5000-entry mempool the add sheds first; the shed count and the shed
ordering hold at a concrete three-entry mempool. -/
theorem mempool_bounded_and_shed_witness :
    MempoolInv (runMempoolOps [MempoolOp.add 0 txW true, MempoolOp.shed, MempoolOp.sweep 9]) ∧
    addTransaction mpBig 0 txW true =
      admitTransaction (removeLowestFeeTransactions mpBig) 0 txW true ∧
    (removeLowestFeeTransactions mpThree).mempool.length + shedCount mpThree.mempool.length =
      mpThree.mempool.length ∧
    feeRate ("a", txA).2 ≤ feeRate ("b", txB).2 := by
  have hsort : sortedByFeeRate mpThree.mempool = mpThree.mempool := by
    norm_num [sortedByFeeRate, mpThree, List.insertionSort, List.orderedInsert,
      feePairLe, feeRate, txA, txB, txC, txW]
  refine ⟨mempool_bounded_and_shed.1 _,
    mempool_bounded_and_shed.2.1 mpBig 0 txW true ?_,
    mempool_bounded_and_shed.2.2.1 mpThree (by decide),
    mempool_bounded_and_shed.2.2.2 mpThree ("a", txA) ("b", txB) ?_ ?_⟩
  · show MAX_MEMPOOL_SIZE ≤ (List.replicate MAX_MEMPOOL_SIZE ("k", txW)).length
    rw [List.length_replicate]
  · rw [hsort]
    decide
  · rw [hsort]
    decide

theorem mapSet_lookup_self {α β : Type} [DecidableEq α] {m : List (α × β)} {k : α}
    {v : β} (h : mapLookup m k = some v) : mapSet m k v = m := by
  induction m with
  | nil => simp [mapLookup] at h
  | cons e rest ih =>
    by_cases hk : e.1 = k
    · simp only [mapLookup, if_pos hk] at h
      obtain ⟨k₁, v₁⟩ := e
      simp only at hk
      simp only [Option.some.injEq] at h
      simp [mapSet, hk, h]
    · simp only [mapLookup, if_neg hk] at h
      simp [mapSet, hk, ih h]

theorem filter_ne_of_not_mem {α : Type} [DecidableEq α] {l : List α} {k : α}
    (h : k ∉ l) : l.filter (fun x => decide (x ≠ k)) = l := by
  rw [List.filter_eq_self]
  intro x hx
  simp only [decide_eq_true_eq]
  intro hxk
  exact h (hxk ▸ hx)

theorem balancesFold_fields (vs : List String) (g : World → String → List (String × Rat)) :
    ∀ w : World,
      ((vs.foldl (fun acc v => { acc with balances := g acc v }) w).consensus = w.consensus ∧
       (vs.foldl (fun acc v => { acc with balances := g acc v }) w).supply = w.supply ∧
       (vs.foldl (fun acc v => { acc with balances := g acc v }) w).chain = w.chain ∧
       (vs.foldl (fun acc v => { acc with balances := g acc v }) w).enqueued = w.enqueued ∧
       (vs.foldl (fun acc v => { acc with balances := g acc v }) w).broadcasts = w.broadcasts) := by
  induction vs with
  | nil => exact fun w => ⟨rfl, rfl, rfl, rfl, rfl⟩
  | cons v rest ih =>
    intro w
    simpa using ih { w with balances := g w v }

theorem distributeBlockReward_fields (env : Env) (w : World) (h : Nat) :
    (distributeBlockReward env w h).consensus = w.consensus ∧
    (distributeBlockReward env w h).chain = w.chain ∧
    (distributeBlockReward env w h).enqueued = w.enqueued ∧
    (distributeBlockReward env w h).broadcasts = w.broadcasts := by
  unfold distributeBlockReward
  split
  · exact ⟨rfl, rfl, rfl, rfl⟩
  · have hfold := balancesFold_fields env.rewardValidators
      (fun acc v => transfer acc.balances "FEE_POOL" v
        ((getAccountBalance w.balances "FEE_POOL" + (BLOCK_REWARD : Rat)) /
          (env.rewardValidators.length : Rat)))
      { w with supply := w.supply + BLOCK_REWARD
               balances := incrementBalance w.balances "FEE_POOL" (BLOCK_REWARD : Rat) }
    exact ⟨hfold.1, hfold.2.2.1, hfold.2.2.2.1, hfold.2.2.2.2⟩

theorem distributeBlockReward_supply (env : Env) (w : World) (h : Nat)
    (hcap : w.supply + BLOCK_REWARD ≤ SUPPLY_CAP) :
    (distributeBlockReward env w h).supply = w.supply + BLOCK_REWARD := by
  unfold distributeBlockReward
  rw [if_neg (Nat.not_lt.mpr hcap)]
  have hfold := balancesFold_fields env.rewardValidators
    (fun acc v => transfer acc.balances "FEE_POOL" v
      ((getAccountBalance w.balances "FEE_POOL" + (BLOCK_REWARD : Rat)) /
        (env.rewardValidators.length : Rat)))
    { w with supply := w.supply + BLOCK_REWARD
             balances := incrementBalance w.balances "FEE_POOL" (BLOCK_REWARD : Rat) }
  exact hfold.2.1

/-- C6 amended: a `finalizeBlock` call on a `(height, hash)` that is already
fully persisted and released — exactly the state a first finalization
leaves behind — keeps the persisted chain, the per-key message tables,
`lastExecutedBlock` (indeed the whole consensus state) and the outputs
unchanged, but it re-distributes the block reward: the total supply grows
by `BLOCK_REWARD` again (and the fee-pool and validator balances are
rewritten), so the second call is not a no-op. -/
theorem finalize_repeat_only_redistributes (env : Env) (w : World) (height : Nat)
    (hash : String) (b : Block)
    (hcache : mapLookup w.chain.cache hash = none)
    (hstore : mapLookup w.chain.blocks hash = some b)
    (hrecon : reconstructBlock b = b)
    (hbhash : b.hash = hash)
    (hvalid : isValidBlock env w.chain b = true)
    (htx : b.transactions = some [])
    (hcp : b.criticalProcesses = some [])
    (hsnap : ¬ b.index % 1000 = 0)
    (hhi : mapLookup w.chain.heightIndex b.index = some hash)
    (hhk : w.chain.heightKey = b.index)
    (hbh : b.index ≤ w.chain.blockHeight)
    (hvc : w.consensus.isViewChanging = false)
    (hcap : w.supply + BLOCK_REWARD ≤ SUPPLY_CAP)
    (hle : height ≤ w.consensus.lastExecutedBlock)
    (hpb : mkKey height hash ∉ w.consensus.processingBlocks)
    (hpp : mapLookup w.consensus.prePrepareMessages (mkKey height hash) = none)
    (hpr : mapLookup w.consensus.prepareMessages (mkKey height hash) = none)
    (hcm : mapLookup w.consensus.commitMessages (mkKey height hash) = none) :
    (finalizeBlock env w height hash).supply = w.supply + BLOCK_REWARD ∧
    (finalizeBlock env w height hash).consensus = w.consensus ∧
    (finalizeBlock env w height hash).chain = w.chain ∧
    (finalizeBlock env w height hash).enqueued = w.enqueued ∧
    (finalizeBlock env w height hash).broadcasts = w.broadcasts := by
  have hget : getBlock w.chain hash = some b := by
    simp only [getBlock, hcache, hstore]
    simp [hrecon]
  have hblocks : mapSet w.chain.blocks b.hash b = w.chain.blocks := by
    rw [hbhash]
    exact mapSet_lookup_self hstore
  have hheights : mapSet w.chain.heightIndex b.index b.hash = w.chain.heightIndex := by
    rw [hbhash]
    exact mapSet_lookup_self hhi
  have hsave : saveBlock env w b = some w := by
    simp only [saveBlock, hvalid, if_true, htx, hcp, Option.getD_some, List.foldl_nil,
      if_neg hsnap]
    rw [hblocks, hheights, Nat.max_eq_left hbh, ← hhk]
  have hdist := distributeBlockReward_fields env w b.index
  have hdistsup := distributeBlockReward_supply env w b.index hcap
  have hppk : mkKey height hash ∉ w.consensus.prePrepareMessages.map (·.1) := by
    intro hm
    have hs := mapLookup_isSome_of_mem_keys hm
    rw [hpp] at hs
    simp at hs
  have hprk : mkKey height hash ∉ w.consensus.prepareMessages.map (·.1) := by
    intro hm
    have hs := mapLookup_isSome_of_mem_keys hm
    rw [hpr] at hs
    simp at hs
  have hcmk : mkKey height hash ∉ w.consensus.commitMessages.map (·.1) := by
    intro hm
    have hs := mapLookup_isSome_of_mem_keys hm
    rw [hcm] at hs
    simp at hs
  simp only [finalizeBlock, hget, hsave]
  simp only [hvc, Bool.false_eq_true, if_false]
  refine ⟨hdistsup, ?_, hdist.2.1, hdist.2.2.1, hdist.2.2.2⟩
  rw [hdist.1]
  rw [Nat.max_eq_left hle, filter_ne_of_not_mem hpb,
    mapDelete_eq_self_of_not_mem hppk,
    mapDelete_eq_self_of_not_mem hprk,
    mapDelete_eq_self_of_not_mem hcmk]

theorem mapLookup_mem {α β : Type} [DecidableEq α] {m : List (α × β)} {k : α} {v : β}
    (h : mapLookup m k = some v) : (k, v) ∈ m := by
  induction m with
  | nil => simp [mapLookup] at h
  | cons e rest ih =>
    obtain ⟨k₁, v₁⟩ := e
    by_cases hk : k₁ = k
    · simp only [mapLookup, if_pos hk, Option.some.injEq] at h
      subst hk
      subst h
      exact List.mem_cons_self _ _
    · simp only [mapLookup, if_neg hk] at h
      exact List.mem_cons_of_mem _ (ih h)

theorem tableDedup_mapSet {t : List (String × List ConsensusMessage)} {k : String}
    {l : List ConsensusMessage} (hT : TableDedup t) (hl : (l.map (·.validator)).Nodup) :
    TableDedup (mapSet t k l) := by
  intro p hp
  rcases mem_mapSet hp with h | h
  · rw [h]
    exact hl
  · exact hT p h

theorem tableDedup_mapEnsure {t : List (String × List ConsensusMessage)} {k : String}
    (hT : TableDedup t) : TableDedup (mapEnsure t k) := by
  unfold mapEnsure
  split
  · exact hT
  · exact tableDedup_mapSet hT (by simp)

theorem tableDedup_mapDelete {t : List (String × List ConsensusMessage)} {k : String}
    (hT : TableDedup t) : TableDedup (mapDelete t k) :=
  fun p hp => hT p (List.mem_of_mem_filter hp)

theorem tableDedup_mapPush {t : List (String × List ConsensusMessage)} {k : String}
    {m : ConsensusMessage} (hT : TableDedup t)
    (hfresh : ∀ e ∈ mapGetD t k [], ¬ e.validator = m.validator) :
    TableDedup (mapPush t k m) := by
  refine tableDedup_mapSet hT ?_
  rw [List.map_append]
  rw [List.nodup_append]
  refine ⟨?_, by simp, ?_⟩
  · cases hl : mapLookup t k with
    | none => simp [mapGetD, hl]
    | some l =>
      have := hT (k, l) (mapLookup_mem hl)
      simpa [mapGetD, hl] using this
  · intro x hx hxm
    rcases List.mem_map.mp hx with ⟨e, he, hev⟩
    simp only [List.map_cons, List.map_nil, List.mem_singleton] at hxm
    exact hfresh e he (by rw [hev, hxm])

theorem broadcastPrepare_consensus (w : World) (m : ConsensusMessage) :
    (broadcastPrepare w m).consensus = w.consensus := rfl

theorem broadcastCommit_consensus (env : Env) (w : World) (h : Nat) (hash : String) :
    (broadcastCommit env w h hash).consensus = w.consensus := rfl

theorem proposeBlock_consensus (env : Env) (w : World) (b : Block) :
    (proposeBlock env w b).consensus = w.consensus := rfl

theorem foldl_proposeBlock_consensus (env : Env) (bs : List Block) :
    ∀ w : World, (bs.foldl (proposeBlock env) w).consensus = w.consensus := by
  induction bs with
  | nil => exact fun _ => rfl
  | cons b rest ih =>
    intro w
    rw [List.foldl_cons, ih (proposeBlock env w b)]
    rfl

theorem reproposePendingBlocks_consensus (env : Env) (w : World) :
    (reproposePendingBlocks env w).consensus = w.consensus := by
  unfold reproposePendingBlocks
  split
  · exact foldl_proposeBlock_consensus env _ w
  · rfl

theorem sendNewView_consensus (env : Env) (w : World) (nv : Nat)
    (msgs : List ConsensusMessage) : (sendNewView env w nv msgs).consensus = w.consensus := by
  simp only [sendNewView]
  rw [reproposePendingBlocks_consensus]

theorem completeViewChange_pc (env : Env) (w : World) (nv : Nat)
    (msgs : List ConsensusMessage) :
    (completeViewChange env w nv msgs).consensus.prepareMessages =
        w.consensus.prepareMessages ∧
    (completeViewChange env w nv msgs).consensus.commitMessages =
        w.consensus.commitMessages := by
  simp only [completeViewChange]
  split
  · rw [sendNewView_consensus]
    exact ⟨rfl, rfl⟩
  · exact ⟨rfl, rfl⟩

theorem initiateViewChange_pc (env : Env) (w : World) :
    (initiateViewChange env w).consensus.prepareMessages = w.consensus.prepareMessages ∧
    (initiateViewChange env w).consensus.commitMessages = w.consensus.commitMessages := by
  simp only [initiateViewChange]
  split
  · exact ⟨rfl, rfl⟩
  · exact ⟨rfl, rfl⟩

theorem saveBlock_consensus {env : Env} {w : World} {b : Block} {w₁ : World}
    (h : saveBlock env w b = some w₁) : w₁.consensus = w.consensus := by
  simp only [saveBlock] at h
  split at h
  · injection h with h₁
    rw [← h₁]
  · cases h

theorem finalizeBlock_dedup (env : Env) (w : World) (h : Nat) (hash : String)
    (hp : TableDedup w.consensus.prepareMessages)
    (hc : TableDedup w.consensus.commitMessages) :
    TableDedup (finalizeBlock env w h hash).consensus.prepareMessages ∧
    TableDedup (finalizeBlock env w h hash).consensus.commitMessages := by
  simp only [finalizeBlock]
  cases hg : getBlock w.chain hash with
  | none => exact ⟨hp, hc⟩
  | some b =>
    simp only []
    cases hs : saveBlock env w b with
    | none => exact ⟨hp, hc⟩
    | some w₁ =>
      simp only []
      have hw₁ : w₁.consensus = w.consensus := saveBlock_consensus hs
      have hw₂c :
          (if w₁.consensus.isViewChanging then w₁
           else distributeBlockReward env w₁ b.index).consensus = w.consensus := by
        split
        · exact hw₁
        · exact ((distributeBlockReward_fields env w₁ b.index).1).trans hw₁
      constructor
      · show TableDedup (mapDelete _ _)
        rw [hw₂c]
        exact tableDedup_mapDelete hp
      · show TableDedup (mapDelete _ _)
        rw [hw₂c]
        exact tableDedup_mapDelete hc

theorem handlePrePrepare_pc (env : Env) (w : World) (m : ConsensusMessage) :
    (handlePrePrepareMessage env w m).consensus.prepareMessages =
        w.consensus.prepareMessages ∧
    (handlePrePrepareMessage env w m).consensus.commitMessages =
        w.consensus.commitMessages := by
  simp only [handlePrePrepareMessage, broadcastPrepare]
  split
  · exact ⟨rfl, rfl⟩
  · split
    · exact ⟨rfl, rfl⟩
    · split
      · exact ⟨rfl, rfl⟩
      · exact ⟨rfl, rfl⟩

theorem foldl_handlePrePrepare_pc (env : Env) (ms : List ConsensusMessage) :
    ∀ w : World,
      (ms.foldl (handlePrePrepareMessage env) w).consensus.prepareMessages =
          w.consensus.prepareMessages ∧
      (ms.foldl (handlePrePrepareMessage env) w).consensus.commitMessages =
          w.consensus.commitMessages := by
  induction ms with
  | nil => exact fun _ => ⟨rfl, rfl⟩
  | cons m rest ih =>
    intro w
    rw [List.foldl_cons]
    exact ⟨(ih _).1.trans (handlePrePrepare_pc env w m).1,
      (ih _).2.trans (handlePrePrepare_pc env w m).2⟩

theorem handleNewView_pc (env : Env) (w : World) (m : ConsensusMessage) :
    (handleNewViewMessage env w m).consensus.prepareMessages =
        w.consensus.prepareMessages ∧
    (handleNewViewMessage env w m).consensus.commitMessages =
        w.consensus.commitMessages := by
  simp only [handleNewViewMessage]
  cases hv : m.view with
  | none => exact ⟨rfl, rfl⟩
  | some v =>
    repeat' split
    all_goals first
      | exact ⟨rfl, rfl⟩
      | exact ⟨(foldl_handlePrePrepare_pc env _ _).1, (foldl_handlePrePrepare_pc env _ _).2⟩

theorem handleViewChange_pc (env : Env) (w : World) (m : ConsensusMessage) :
    (handleViewChangeMessage env w m).consensus.prepareMessages =
        w.consensus.prepareMessages ∧
    (handleViewChangeMessage env w m).consensus.commitMessages =
        w.consensus.commitMessages := by
  simp only [handleViewChangeMessage]
  cases hv : m.newView with
  | none => exact ⟨rfl, rfl⟩
  | some nv =>
    repeat' split
    all_goals first
      | exact ⟨rfl, rfl⟩
      | exact ⟨(initiateViewChange_pc env _).1, (initiateViewChange_pc env _).2⟩
      | exact ⟨(completeViewChange_pc env _ _ _).1, (completeViewChange_pc env _ _ _).2⟩
      | exact ⟨by rw [(completeViewChange_pc env _ _ _).1, (initiateViewChange_pc env _).1],
          by rw [(completeViewChange_pc env _ _ _).2, (initiateViewChange_pc env _).2]⟩

theorem handlePrepare_dedup (env : Env) (w : World) (m : ConsensusMessage)
    (hp : TableDedup w.consensus.prepareMessages)
    (hc : TableDedup w.consensus.commitMessages) :
    TableDedup (handlePrepareMessage env w m).consensus.prepareMessages ∧
    TableDedup (handlePrepareMessage env w m).consensus.commitMessages := by
  simp only [handlePrepareMessage]
  split
  · exact ⟨hp, hc⟩
  · split
    · exact ⟨tableDedup_mapEnsure hp, hc⟩
    · rename_i hguard
      have hpush : TableDedup (mapPush
          (mapEnsure w.consensus.prepareMessages (mkKey m.blockHeight m.blockHash))
          (mkKey m.blockHeight m.blockHash) m) := by
        refine tableDedup_mapPush (tableDedup_mapEnsure hp) ?_
        intro e he hv
        exact hguard (List.any_eq_true.mpr ⟨e, he, by simp [hv]⟩)
      split
      · exact ⟨hpush, hc⟩
      · exact ⟨hpush, hc⟩

theorem handleCommit_dedup (env : Env) (w : World) (m : ConsensusMessage)
    (hp : TableDedup w.consensus.prepareMessages)
    (hc : TableDedup w.consensus.commitMessages) :
    TableDedup (handleCommitMessage env w m).consensus.prepareMessages ∧
    TableDedup (handleCommitMessage env w m).consensus.commitMessages := by
  simp only [handleCommitMessage]
  split
  · exact ⟨hp, hc⟩
  · split
    · exact ⟨hp, tableDedup_mapEnsure hc⟩
    · rename_i hguard
      have hpush : TableDedup (mapPush
          (mapEnsure w.consensus.commitMessages (mkKey m.blockHeight m.blockHash))
          (mkKey m.blockHeight m.blockHash) m) := by
        refine tableDedup_mapPush (tableDedup_mapEnsure hc) ?_
        intro e he hv
        exact hguard (List.any_eq_true.mpr ⟨e, he, by simp [hv]⟩)
      split
      · exact finalizeBlock_dedup env _ m.blockHeight m.blockHash hp hpush
      · exact ⟨hp, hpush⟩

/-- C2 amended: on the network-handler path the per-validator uniqueness of
the `prepare` and `commit` tables is an invariant — `handlePrepareMessage`
and `handleCommitMessage` drop a duplicate from the same validator
silently (first-writer-wins), and every other handler leaves those two
tables untouched or merely deletes keys. The claim's full statement fails:
the queued-message path (`processQueuedMessage`) appends with no duplicate
check, and the `viewChange` lists are not deduplicated on either path. -/
theorem handler_path_prepare_commit_dedup (env : Env) (w : World) (m : ConsensusMessage)
    (hp : TableDedup w.consensus.prepareMessages)
    (hc : TableDedup w.consensus.commitMessages) :
    TableDedup (handleConsensusMessage env w m).consensus.prepareMessages ∧
    TableDedup (handleConsensusMessage env w m).consensus.commitMessages := by
  simp only [handleConsensusMessage]
  split
  · exact ⟨hp, hc⟩
  · split
    · exact ⟨hp, hc⟩
    · cases m.type with
      | PRE_PREPARE =>
        exact ⟨(handlePrePrepare_pc env w m).1 ▸ hp, (handlePrePrepare_pc env w m).2 ▸ hc⟩
      | PREPARE => exact handlePrepare_dedup env w m hp hc
      | COMMIT => exact handleCommit_dedup env w m hp hc
      | VIEW_CHANGE =>
        exact ⟨(handleViewChange_pc env w m).1 ▸ hp, (handleViewChange_pc env w m).2 ▸ hc⟩
      | NEW_VIEW =>
        exact ⟨(handleNewView_pc env w m).1 ▸ hp, (handleNewView_pc env w m).2 ▸ hc⟩

/-- Witness for the amended C2 at a concrete state and message. -/
theorem handler_path_prepare_commit_dedup_witness :
    TableDedup ({ consensus := sFour } : World).consensus.prepareMessages ∧
    TableDedup ({ consensus := sFour } : World).consensus.commitMessages ∧
    TableDedup (handleConsensusMessage envTrue { consensus := sFour }
        mPrepareV2).consensus.prepareMessages ∧
    TableDedup (handleConsensusMessage envTrue { consensus := sFour }
        mPrepareV2).consensus.commitMessages := by
  have h := handler_path_prepare_commit_dedup envTrue { consensus := sFour } mPrepareV2
    (by decide) (by decide)
  exact ⟨by decide, by decide, h.1, h.2⟩

/-- Witness for the amended C6 at the state left by a real first
finalization of `(1, "H")` from `wFin`. -/
theorem finalize_repeat_only_redistributes_witness :
    (finalizeBlock envTrue wFinOnce 1 "H").supply = wFinOnce.supply + BLOCK_REWARD ∧
    (finalizeBlock envTrue wFinOnce 1 "H").consensus = wFinOnce.consensus ∧
    (finalizeBlock envTrue wFinOnce 1 "H").chain = wFinOnce.chain := by
  have h := finalize_repeat_only_redistributes envTrue wFinOnce 1 "H" bFin
    (by decide) (by decide) (by decide) (by decide) (by decide) (by decide) (by decide)
    (by decide) (by decide) (by decide) (by decide) (by decide) (by decide) (by decide)
    (by decide) (by decide) (by decide) (by decide)
  exact ⟨h.1, h.2.1, h.2.2.1⟩

end TCValidator
